import Mathlib

/-!
Verification of the help-text parser in completions/mlir_opt_comp_helper.py.

Strings are modelled as List Char.  Python's whitespace notion (str.isspace,
also used by str.strip, str.split and the regex class for whitespace),
str.splitlines, str.partition, str.lstrip/rstrip with an argument, and
re.sub collapsing whitespace runs are given explicit executable models.
The mutable record aliases current / current_opt of parse_help are modelled
as indices into the accumulated options list: current is only ever assigned
right before the record is appended, and current_opt right after the
sub-option is appended, so positions are stable because the list only grows.
-/

/-- Python str.isspace on a single character (the set CPython treats as
whitespace; str.strip, str.split and the whitespace regex class use it). -/
def isPySpace (c : Char) : Bool :=
  c = ' ' || c = '\t' || c = '\n' || c = '\x0b' || c = '\x0c' || c = '\r' ||
  c = '\x1c' || c = '\x1d' || c = '\x1e' || c = '\x1f' ||
  c = '\x85' || c = '\xa0' || c = '\u1680' ||
  c = '\u2000' || c = '\u2001' || c = '\u2002' || c = '\u2003' ||
  c = '\u2004' || c = '\u2005' || c = '\u2006' || c = '\u2007' ||
  c = '\u2008' || c = '\u2009' || c = '\u200a' ||
  c = '\u2028' || c = '\u2029' || c = '\u202f' || c = '\u205f' || c = '\u3000'

/-- Line boundaries recognised by Python str.splitlines. -/
def isLineBreak (c : Char) : Bool :=
  c = '\n' || c = '\r' || c = '\x0b' || c = '\x0c' ||
  c = '\x1c' || c = '\x1d' || c = '\x1e' ||
  c = '\x85' || c = '\u2028' || c = '\u2029'

/-- Worker for splitlines: acc is the current line, reversed. -/
def splitlinesGo (acc : List Char) : List Char → List (List Char)
  | [] => if acc = [] then [] else [acc.reverse]
  | '\r' :: '\n' :: rest => acc.reverse :: splitlinesGo [] rest
  | c :: rest =>
      if isLineBreak c then acc.reverse :: splitlinesGo [] rest
      else splitlinesGo (c :: acc) rest

/-- Python str.splitlines (without keepends). -/
def splitlines (s : List Char) : List (List Char) := splitlinesGo [] s

/-- Python s.lstrip() (strip leading whitespace). -/
def pyLstrip (s : List Char) : List Char := s.dropWhile isPySpace

/-- Python s.strip() (strip whitespace from both ends). -/
def pyStrip (s : List Char) : List Char :=
  ((s.dropWhile isPySpace).reverse.dropWhile isPySpace).reverse

/-- Python s.rstrip(c) for a single stripped character c. -/
def rstripChar (c : Char) (s : List Char) : List Char :=
  (s.reverse.dropWhile (fun d => d = c)).reverse

/-- Worker for whitespace-run collapsing: the flag records whether the
previous character was whitespace (so the run's single space was already
emitted). -/
def collapseGo (prevWs : Bool) : List Char → List Char
  | [] => []
  | c :: cs =>
      if isPySpace c then
        if prevWs then collapseGo true cs else ' ' :: collapseGo true cs
      else c :: collapseGo false cs

/-- Python re.sub of one-or-more whitespace by a single space. -/
def collapseWS (s : List Char) : List Char := collapseGo false s

/-- sanitize from the source: strip, collapse whitespace runs to one space,
then replace the field separator U+001F by a space. -/
def sanitize (text : List Char) : List Char :=
  (collapseWS (pyStrip text)).map (fun c => if c = '\x1f' then ' ' else c)

/-- Worker for Python str.partition: scans for the first occurrence of sep,
keeping the already-scanned prefix reversed in acc and the original string
for the not-found answer. -/
def partitionGo (orig sep acc : List Char) : List Char → List Char × Bool × List Char
  | [] => (orig, false, [])
  | c :: rest =>
      if sep.isPrefixOf (c :: rest) then (acc.reverse, true, (c :: rest).drop sep.length)
      else partitionGo orig sep (c :: acc) rest

/-- Python s.partition(sep): (part before sep, whether sep was found,
part after sep). -/
def partitionStr (s sep : List Char) : List Char × Bool × List Char :=
  partitionGo s sep [] s

/-- Worker for Python str.split(): acc is the current word, reversed. -/
def pySplitGo (acc : List Char) : List Char → List (List Char)
  | [] => if acc = [] then [] else [acc.reverse]
  | c :: cs =>
      if isPySpace c then
        if acc = [] then pySplitGo [] cs else acc.reverse :: pySplitGo [] cs
      else pySplitGo (c :: acc) cs

/-- Python s.split() with no argument: words separated by whitespace runs,
empty words dropped. -/
def pySplit (s : List Char) : List (List Char) := pySplitGo [] s

/-- Replace the element at position n (no change when out of range). -/
def updateAt : List α → Nat → (α → α) → List α
  | [], _, _ => []
  | x :: xs, 0, f => f x :: xs
  | x :: xs, n + 1, f => x :: updateAt xs n f

/-- One case in an option that has multiple possible values. -/
structure Choice where
  value : List Char
  description : List Char
deriving Repr, DecidableEq

/-- Option categories of the source (LLVM means: ignored). -/
inductive OptionCategory where
  | GENERIC
  | MLIR_OPTION
  | MLIR_PASS
  | MLIR_PASS_PIPELINE
  | LLVM
deriving Repr, DecidableEq

/-- One option of an MLIR pass (PassOption in the source). -/
structure PassOption where
  name : List Char
  insert_text : List Char
  style : List Char
  description : List Char
  value_hint : List Char
  choices : List Choice
deriving Repr, DecidableEq

/-- mlir-opt option (OptionRecord in the source). -/
structure OptionRecord where
  name : List Char
  category : OptionCategory
  insert_text : List Char
  style : List Char
  description : List Char
  value_hint : List Char
  choices : List Choice
  sub_options : List PassOption
deriving Repr, DecidableEq

/-- Section states of the help-text scanner (HelpState in the source). -/
inductive HelpState where
  | GENERAL_LLVM
  | MLIR_PASSES
  | MLIR_PIPELINES
  | GENERIC_OPTIONS
deriving Repr, DecidableEq

/-- new_state_on_header from the source: the fixed header table. -/
def HelpState.new_state_on_header (s : HelpState) (header : List Char) : HelpState :=
  if header = "Generic Options:".data then HelpState.GENERIC_OPTIONS
  else if header = "General options:".data then HelpState.GENERAL_LLVM
  else if header = "IR2Vec Options:".data then HelpState.GENERAL_LLVM
  else if header = "Passes:".data then HelpState.MLIR_PASSES
  else if header = "Pass Pipelines:".data then HelpState.MLIR_PIPELINES
  else if header = "Color Options:".data then HelpState.GENERIC_OPTIONS
  else s

/-- category from the source: category of a newly opened option, from the
active section state and the option name. -/
def HelpState.category (s : HelpState) (opt_name : List Char) : OptionCategory :=
  match s with
  | HelpState.GENERAL_LLVM =>
      if "--mlir-".data.isPrefixOf opt_name then OptionCategory.MLIR_OPTION
      else OptionCategory.LLVM
  | HelpState.MLIR_PASSES => OptionCategory.MLIR_PASS
  | HelpState.MLIR_PIPELINES => OptionCategory.MLIR_PASS_PIPELINE
  | HelpState.GENERIC_OPTIONS => OptionCategory.GENERIC

/-- decode_option from the source: decode an option spec into
(name, insert_text, style, value_hint). -/
def decode_option (option_part : List Char) : List Char × List Char × List Char × List Char :=
  match pySplit option_part with
  | [] => ([], [], "flag".data, [])
  | token :: _ =>
      let remainder := pyStrip (option_part.drop token.length)
      if token.contains '=' then
        let parts := partitionStr token ['=']
        let name := rstripChar '[' parts.1
        let insert_text := name ++ ['=']
        let tail0 := rstripChar ']' parts.2.2
        let value_hint :=
          if tail0 ≠ [] then tail0
          else if remainder.head? = some '<' then (pySplit remainder).headD []
          else []
        (rstripChar ',' name, insert_text, "attached".data, value_hint)
      else if remainder.head? = some '<' then
        (rstripChar ',' token, token, "separate".data, (pySplit remainder).headD [])
      else
        (rstripChar ',' token, token, "flag".data, [])

/-- The loop state of parse_help.  current and current_opt are the indices
of the aliased open records inside options (stable since options only
grows at the end and elements are only extended in place). -/
structure ParseState where
  options : List OptionRecord
  current : Option Nat
  current_opt : Option (Nat × Nat)
  last_type : Option (List Char)
  last_pass_indent : Option Nat
  state : HelpState
deriving Repr, DecidableEq

/-- Initial loop state of parse_help. -/
def initState : ParseState :=
  ⟨[], none, none, none, none, HelpState.GENERAL_LLVM⟩

/-- The dedent heuristic at the top of the loop body: while in the pass
pipelines section, a dedent of at least 4 columns from the last top-level
option indent reverts the state to GENERAL_LLVM (Python int comparison
indent <= last_pass_indent - 4). -/
def dedent (st : ParseState) (indent : Nat) : ParseState :=
  match st.last_pass_indent with
  | some lpi =>
      if (indent : Int) ≤ (lpi : Int) - 4 ∧ st.state = HelpState.MLIR_PIPELINES then
        { st with state := HelpState.GENERAL_LLVM }
      else st
  | none => st

/-- Number of sub-options of the record at position k. -/
def subCountAt (opts : List OptionRecord) (k : Nat) : Nat :=
  match opts.get? k with
  | some r => r.sub_options.length
  | none => 0

/-- current_opt.choices.append(ch), through the aliases: the choice list of
sub-option j of record k grows by ch. -/
def appendChoiceAt (opts : List OptionRecord) (k j : Nat) (ch : Choice) : List OptionRecord :=
  updateAt opts k (fun r =>
    { r with sub_options := updateAt r.sub_options j (fun p =>
        { p with choices := p.choices ++ [ch] }) })

/-- current.sub_options.append(p), through the alias: the sub-option list of
record k grows by p. -/
def appendSubAt (opts : List OptionRecord) (k : Nat) (p : PassOption) : List OptionRecord :=
  updateAt opts k (fun r => { r with sub_options := r.sub_options ++ [p] })

/-- The two leading dashes tested by stripped.startswith. -/
def dashes : List Char := ['-', '-']

/-- Opening a new top-level option record: construct it from the decoded
tuple, classify it with the active state, append it, alias current to it,
and record the line's indent. -/
def openTopLevel (st : ParseState) (dec : List Char × List Char × List Char × List Char)
    (description : List Char) (indent : Nat) : ParseState :=
  { st with
    options := st.options ++
      [⟨dec.1, HelpState.category st.state dec.1, dec.2.1, dec.2.2.1, description,
        dec.2.2.2, [], []⟩],
    current := some st.options.length,
    last_type := some "option".data,
    last_pass_indent := some indent }

/-- The tail of the loop body, after an option line was decoded to a
non-empty name: either attach a sub-option (pass option) or open a new
top-level record. -/
def processOption (st1 : ParseState) (stripped : List Char) (indent : Nat)
    (dec : List Char × List Char × List Char × List Char)
    (description : List Char) : ParseState :=
  match st1.current, st1.last_pass_indent with
  | some k, some lpi =>
      if indent = lpi + 2 ∧ dashes.isPrefixOf stripped then
        let pass_opt_name := dec.1.dropWhile (fun c => c = '-')
        if pass_opt_name = [] then st1
        else
          { st1 with
            options := appendSubAt st1.options k
              ⟨pass_opt_name, pass_opt_name, dec.2.2.1, description, dec.2.2.2, []⟩,
            current_opt := some (k, subCountAt st1.options k),
            last_type := some "pass-option".data }
      else openTopLevel st1 dec description indent
  | _, _ => openTopLevel st1 dec description indent

/-- One iteration of the parse_help loop on a raw line. -/
def processLine (st : ParseState) (raw : List Char) : ParseState :=
  let stripped := raw.dropWhile isPySpace
  if stripped = [] then
    { st with last_type := some "blank".data, last_pass_indent := none }
  else
    let indent := raw.length - stripped.length
    let st1 := dedent st indent
    if stripped.head? = some '=' then
      match st1.current_opt with
      | none => st1
      | some kj =>
          let parts := partitionStr stripped ['-']
          let value := sanitize (parts.1.dropWhile (fun c => c = '='))
          let desc := sanitize parts.2.2
          let st2 :=
            if value = [] then st1
            else { st1 with options := appendChoiceAt st1.options kj.1 kj.2 ⟨value, desc⟩ }
          { st2 with last_type := some "choice".data }
    else if ¬ (stripped.head? = some '-') then
      { st1 with
        state := HelpState.new_state_on_header st1.state stripped,
        current := none, current_opt := none,
        last_type := some "other".data, last_pass_indent := none }
    else
      let parts := partitionStr stripped (' ' :: '-' :: ' ' :: [])
      if parts.2.1 = false then
        { st1 with current := none, current_opt := none, last_type := some "other".data }
      else
        let option_part := pyStrip parts.1
        let description := sanitize parts.2.2
        if option_part = [] then st1
        else
          let dec := decode_option option_part
          if dec.1 = [] then st1
          else processOption st1 stripped indent dec description

/-- parse_help from the source: fold the loop body over the lines of the
text, starting from the initial state, and return the option list. -/
def parse_help (text : String) : List OptionRecord :=
  ((splitlines text.data).foldl processLine initState).options

/-- No two adjacent whitespace characters anywhere in the string. -/
def noAdjSpaces : List Char → Bool
  | a :: b :: t => (!(isPySpace a && isPySpace b)) && noAdjSpaces (b :: t)
  | _ => true

theorem collapseGo_all (l : List Char) :
    ∀ b, (collapseGo b l).all (fun c => !isPySpace c || c == ' ') = true := by
  induction l with
  | nil => intro b; rfl
  | cons c cs ih =>
      intro b
      by_cases h : isPySpace c = true
      · cases b with
        | true =>
            rw [show collapseGo true (c :: cs) = collapseGo true cs by simp [collapseGo, h]]
            exact ih true
        | false =>
            rw [show collapseGo false (c :: cs) = ' ' :: collapseGo true cs by
              simp [collapseGo, h]]
            rw [List.all_cons, ih true]
            decide
      · rw [show collapseGo b (c :: cs) = c :: collapseGo false cs by simp [collapseGo, h]]
        rw [List.all_cons, ih false]
        have hf : isPySpace c = false := by simpa using h
        rw [hf]
        rfl

theorem collapseGo_true_head (l : List Char) :
    ((collapseGo true l).head?).all (fun c => !isPySpace c) = true := by
  induction l with
  | nil => rfl
  | cons c cs ih =>
      by_cases h : isPySpace c = true
      · rw [show collapseGo true (c :: cs) = collapseGo true cs by simp [collapseGo, h]]
        exact ih
      · have hf : isPySpace c = false := by simpa using h
        rw [show collapseGo true (c :: cs) = c :: collapseGo false cs by simp [collapseGo, hf]]
        simp [Option.all, hf]

theorem collapseGo_false_head (l : List Char)
    (h : (l.head?).all (fun c => !isPySpace c) = true) :
    ((collapseGo false l).head?).all (fun c => !isPySpace c) = true := by
  cases l with
  | nil => rfl
  | cons c cs =>
      simp only [List.head?, Option.all] at h
      have hf : isPySpace c = false := by simpa using h
      rw [show collapseGo false (c :: cs) = c :: collapseGo false cs by simp [collapseGo, hf]]
      simp [Option.all, hf]

theorem noAdjSpaces_cons (c : Char) (l : List Char)
    (hl : noAdjSpaces l = true)
    (h : isPySpace c = false ∨ (l.head?).all (fun d => !isPySpace d) = true) :
    noAdjSpaces (c :: l) = true := by
  cases l with
  | nil => rfl
  | cons d ds =>
      rcases h with h | h
      · simp [noAdjSpaces, h, hl]
      · simp only [List.head?, Option.all] at h
        have hf : isPySpace d = false := by simpa using h
        simp [noAdjSpaces, hf, hl]

theorem collapseGo_noAdj (l : List Char) :
    ∀ b, noAdjSpaces (collapseGo b l) = true := by
  induction l with
  | nil => intro b; rfl
  | cons c cs ih =>
      intro b
      by_cases h : isPySpace c = true
      · cases b with
        | true =>
            rw [show collapseGo true (c :: cs) = collapseGo true cs by simp [collapseGo, h]]
            exact ih true
        | false =>
            rw [show collapseGo false (c :: cs) = ' ' :: collapseGo true cs by
              simp [collapseGo, h]]
            exact noAdjSpaces_cons ' ' _ (ih true) (Or.inr (collapseGo_true_head cs))
      · have hf : isPySpace c = false := by simpa using h
        rw [show collapseGo b (c :: cs) = c :: collapseGo false cs by simp [collapseGo, hf]]
        exact noAdjSpaces_cons c _ (ih false) (Or.inl hf)

theorem collapseGo_false_ne_nil (l : List Char) (h : l ≠ []) :
    collapseGo false l ≠ [] := by
  cases l with
  | nil => exact absurd rfl h
  | cons c cs =>
      by_cases hp : isPySpace c = true
      · simp [collapseGo, hp]
      · have hf : isPySpace c = false := by simpa using hp
        simp [collapseGo, hf]

theorem collapseGo_true_nil_all (l : List Char) (h : collapseGo true l = []) :
    l.all isPySpace = true := by
  induction l with
  | nil => rfl
  | cons c cs ih =>
      by_cases hp : isPySpace c = true
      · rw [show collapseGo true (c :: cs) = collapseGo true cs by simp [collapseGo, hp]] at h
        rw [List.all_cons, hp, ih h]
        rfl
      · have hf : isPySpace c = false := by simpa using hp
        rw [show collapseGo true (c :: cs) = c :: collapseGo false cs by
          simp [collapseGo, hf]] at h
        exact absurd h (by simp)

theorem getLast?_cons_of_ne_nil (c : Char) (l : List Char) (h : l ≠ []) :
    (c :: l).getLast? = l.getLast? := by
  cases l with
  | nil => exact absurd rfl h
  | cons d ds => simp [List.getLast?_cons_cons]

theorem mem_of_getLast? {l : List Char} {c : Char} (h : l.getLast? = some c) : c ∈ l := by
  induction l with
  | nil => simp [List.getLast?] at h
  | cons d ds ih =>
      cases ds with
      | nil =>
          simp [List.getLast?] at h
          simp [h]
      | cons e es =>
          rw [List.getLast?_cons_cons] at h
          exact List.mem_cons_of_mem d (ih h)

theorem collapseGo_getLast (l : List Char)
    (h : (l.getLast?).all (fun c => !isPySpace c) = true) :
    ∀ b, ((collapseGo b l).getLast?).all (fun c => !isPySpace c) = true := by
  induction l with
  | nil => intro b; rfl
  | cons c cs ih =>
      intro b
      cases cs with
      | nil =>
          have hf : isPySpace c = false := by
            simp only [List.getLast?, Option.all] at h
            simpa using h
          rw [show collapseGo b (c :: []) = [c] by cases b <;> simp [collapseGo, hf]]
          simp [List.getLast?, Option.all, hf]
      | cons d ds =>
          have hlast : (c :: d :: ds).getLast? = (d :: ds).getLast? := by
            simp [List.getLast?_cons_cons]
          rw [hlast] at h
          have hcsne : (d :: ds) ≠ [] := by simp
          by_cases hp : isPySpace c = true
          · have htail := ih h
            cases b with
            | true =>
                rw [show collapseGo true (c :: d :: ds) = collapseGo true (d :: ds) by
                  simp [collapseGo, hp]]
                exact htail true
            | false =>
                rw [show collapseGo false (c :: d :: ds) = ' ' :: collapseGo true (d :: ds) by
                  simp [collapseGo, hp]]
                have hne : collapseGo true (d :: ds) ≠ [] := by
                  intro hnil
                  have hall := collapseGo_true_nil_all _ hnil
                  rcases hcl : (d :: ds).getLast? with _ | e
                  · simp [List.getLast?_eq_none_iff] at hcl
                  · rw [hcl] at h
                    have hmem := mem_of_getLast? hcl
                    have he := List.all_eq_true.1 hall e hmem
                    simp [Option.all, he] at h
                rw [getLast?_cons_of_ne_nil ' ' _ hne]
                exact htail true
          · have hf : isPySpace c = false := by simpa using hp
            rw [show collapseGo b (c :: d :: ds) = c :: collapseGo false (d :: ds) by
              cases b <;> simp [collapseGo, hf]]
            have hne : collapseGo false (d :: ds) ≠ [] := collapseGo_false_ne_nil _ hcsne
            rw [getLast?_cons_of_ne_nil c _ hne]
            exact ih h false

theorem head?_dropWhile (p : Char → Bool) (l : List Char) :
    ((l.dropWhile p).head?).all (fun a => !p a) = true := by
  induction l with
  | nil => rfl
  | cons x xs ih =>
      by_cases h : p x = true
      · rw [show (x :: xs).dropWhile p = xs.dropWhile p by simp [List.dropWhile, h]]
        exact ih
      · have hf : p x = false := by simpa using h
        rw [show (x :: xs).dropWhile p = x :: xs by simp [List.dropWhile, hf]]
        simp [Option.all, hf]

theorem getLast?_dropWhile_of_ne_nil (p : Char → Bool) (l : List Char)
    (h : l.dropWhile p ≠ []) : (l.dropWhile p).getLast? = l.getLast? := by
  induction l with
  | nil => simp [List.dropWhile] at h
  | cons x xs ih =>
      by_cases hp : p x = true
      · have hd : (x :: xs).dropWhile p = xs.dropWhile p := by simp [List.dropWhile, hp]
        rw [hd] at h ⊢
        have hxs : xs ≠ [] := by
          intro hx; rw [hx] at h; simp [List.dropWhile] at h
        rw [ih h]
        exact (getLast?_cons_of_ne_nil x xs hxs).symm
      · have hf : p x = false := by simpa using hp
        simp [List.dropWhile, hf]

theorem pyStrip_head (s : List Char) :
    ((pyStrip s).head?).all (fun c => !isPySpace c) = true := by
  unfold pyStrip
  rcases hcase : (s.dropWhile isPySpace).reverse.dropWhile isPySpace with _ | ⟨c, cs⟩
  · simp [hcase]
  · rw [← hcase]
    have hne : (s.dropWhile isPySpace).reverse.dropWhile isPySpace ≠ [] := by
      rw [hcase]; simp
    rw [List.head?_reverse]
    rw [getLast?_dropWhile_of_ne_nil isPySpace (s.dropWhile isPySpace).reverse hne]
    rw [List.getLast?_reverse]
    exact head?_dropWhile isPySpace s

theorem pyStrip_getLast (s : List Char) :
    ((pyStrip s).getLast?).all (fun c => !isPySpace c) = true := by
  unfold pyStrip
  rw [List.getLast?_reverse]
  exact head?_dropWhile isPySpace _

theorem map_sep_id (l : List Char)
    (h : l.all (fun c => !isPySpace c || c == ' ') = true) :
    l.map (fun c => if c = '\x1f' then ' ' else c) = l := by
  induction l with
  | nil => rfl
  | cons c cs ih =>
      rw [List.all_cons, Bool.and_eq_true] at h
      obtain ⟨h1, h2⟩ := h
      have hc : ¬ (c = '\x1f') := by
        intro he
        subst he
        exact absurd h1 (by decide)
      simp only [List.map_cons, if_neg hc, ih h2]

theorem not_mem_sep (l : List Char)
    (h : l.all (fun c => !isPySpace c || c == ' ') = true) :
    ¬ ('\x1f' ∈ l) := by
  intro hmem
  have := List.all_eq_true.1 h _ hmem
  exact absurd this (by decide)

theorem contains_sep_false (l : List Char)
    (h : l.all (fun c => !isPySpace c || c == ' ') = true) :
    l.contains '\x1f' = false := by
  simpa using not_mem_sep l h

/-- A string is sanitized: its whitespace characters are all plain spaces,
no two of them are adjacent, it neither starts nor ends with whitespace,
and it contains no U+001F field separator. -/
def sanitizedOk (s : List Char) : Bool :=
  s.all (fun c => !isPySpace c || c == ' ') &&
  noAdjSpaces s &&
  s.head?.all (fun c => !isPySpace c) &&
  s.getLast?.all (fun c => !isPySpace c) &&
  !(s.contains '\x1f')

theorem sanitize_sanitizedOk (s : List Char) : sanitizedOk (sanitize s) = true := by
  have hall := collapseGo_all (pyStrip s) false
  have hid : sanitize s = collapseGo false (pyStrip s) := by
    unfold sanitize collapseWS
    exact map_sep_id _ hall
  unfold sanitizedOk
  rw [hid]
  rw [hall, collapseGo_noAdj (pyStrip s) false,
    collapseGo_false_head _ (pyStrip_head s),
    collapseGo_getLast _ (pyStrip_getLast s) false,
    contains_sep_false _ hall]
  rfl

theorem updateAt_length (l : List α) (n : Nat) (f : α → α) :
    (updateAt l n f).length = l.length := by
  induction l generalizing n with
  | nil => rfl
  | cons x xs ih =>
      cases n with
      | zero => rfl
      | succ m => simp only [updateAt, List.length_cons, ih]

theorem mem_updateAt {l : List α} {n : Nat} {f : α → α} {a : α}
    (h : a ∈ updateAt l n f) : a ∈ l ∨ ∃ b, b ∈ l ∧ a = f b := by
  induction l generalizing n with
  | nil => simp [updateAt] at h
  | cons x xs ih =>
      cases n with
      | zero =>
          rcases (List.mem_cons).1 h with h1 | h1
          · exact Or.inr ⟨x, List.mem_cons_self x xs, h1⟩
          · exact Or.inl (List.mem_cons_of_mem x h1)
      | succ n' =>
          rcases (List.mem_cons).1 h with h1 | h1
          · exact Or.inl (h1 ▸ List.mem_cons_self x xs)
          · rcases ih h1 with h2 | ⟨b, hb, hab⟩
            · exact Or.inl (List.mem_cons_of_mem x h2)
            · exact Or.inr ⟨b, List.mem_cons_of_mem x hb, hab⟩

/-- All texts of a Choice are sanitized. -/
def choiceOk (c : Choice) : Bool := sanitizedOk c.value && sanitizedOk c.description

/-- Description and choice texts of a sub-option are sanitized. -/
def subOk (p : PassOption) : Bool := sanitizedOk p.description && p.choices.all choiceOk

/-- Description, choice and sub-option texts of a record are sanitized. -/
def recOk (r : OptionRecord) : Bool :=
  sanitizedOk r.description && r.choices.all choiceOk && r.sub_options.all subOk

/-- All records of a catalog carry only sanitized descriptions and choices. -/
def CatalogOk (opts : List OptionRecord) : Prop := ∀ r ∈ opts, recOk r = true

/-- The line with leading whitespace removed (the stripped of the loop). -/
def strippedOf (raw : List Char) : List Char := raw.dropWhile isPySpace

/-- The indentation width of a line (the indent of the loop). -/
def indentOf (raw : List Char) : Nat := raw.length - (strippedOf raw).length

/-- The three-character option/description separator. -/
def optSep : List Char := ' ' :: '-' :: ' ' :: []

/-- The option spec of an option line: text before the separator, stripped. -/
def optionPartOf (raw : List Char) : List Char :=
  pyStrip (partitionStr (strippedOf raw) optSep).1

/-- The sanitized description of an option line: text after the separator. -/
def descriptionOf (raw : List Char) : List Char :=
  sanitize (partitionStr (strippedOf raw) optSep).2.2

/-- The decoded tuple of an option line. -/
def decodedOf (raw : List Char) : List Char × List Char × List Char × List Char :=
  decode_option (optionPartOf raw)

/-- The value of a choice line: text before the first dash, with leading
equal signs removed, sanitized. -/
def choiceValueOf (raw : List Char) : List Char :=
  sanitize (((partitionStr (strippedOf raw) ['-']).1).dropWhile (fun c => c = '='))

/-- The description of a choice line: text after the first dash, sanitized. -/
def choiceDescOf (raw : List Char) : List Char :=
  sanitize ((partitionStr (strippedOf raw) ['-']).2.2)

theorem dedent_options (st : ParseState) (i : Nat) : (dedent st i).options = st.options := by
  unfold dedent
  cases h : st.last_pass_indent with
  | none => first | rfl | exact h
  | some p =>
      split <;> first | rfl | exact h | (split <;> first | rfl | exact h)

theorem dedent_current (st : ParseState) (i : Nat) : (dedent st i).current = st.current := by
  unfold dedent
  cases h : st.last_pass_indent with
  | none => first | rfl | exact h
  | some p =>
      split <;> first | rfl | exact h | (split <;> first | rfl | exact h)

theorem dedent_current_opt (st : ParseState) (i : Nat) :
    (dedent st i).current_opt = st.current_opt := by
  unfold dedent
  cases h : st.last_pass_indent with
  | none => first | rfl | exact h
  | some p =>
      split <;> first | rfl | exact h | (split <;> first | rfl | exact h)

theorem dedent_last_pass_indent (st : ParseState) (i : Nat) :
    (dedent st i).last_pass_indent = st.last_pass_indent := by
  unfold dedent
  cases h : st.last_pass_indent with
  | none => first | rfl | exact h
  | some p =>
      split <;> first | rfl | exact h | (split <;> first | rfl | exact h)

theorem processLine_blank (st : ParseState) (raw : List Char)
    (h : strippedOf raw = []) :
    processLine st raw =
      { st with last_type := some "blank".data, last_pass_indent := none } := by
  unfold processLine
  unfold strippedOf at h
  rw [if_pos h]

theorem processLine_choice_none (st : ParseState) (raw : List Char)
    (h1 : strippedOf raw ≠ []) (h2 : (strippedOf raw).head? = some '=')
    (h3 : st.current_opt = none) :
    processLine st raw = dedent st (indentOf raw) := by
  unfold processLine
  unfold strippedOf at h1 h2
  rw [if_neg h1, if_pos h2]
  rw [show (dedent st (raw.length - (raw.dropWhile isPySpace).length)).current_opt = none from
    (dedent_current_opt st _).trans h3]
  rfl

theorem processLine_choice_some_nil (st : ParseState) (raw : List Char) (k j : Nat)
    (h1 : strippedOf raw ≠ []) (h2 : (strippedOf raw).head? = some '=')
    (h3 : st.current_opt = some (k, j)) (hv : choiceValueOf raw = []) :
    processLine st raw =
      { dedent st (indentOf raw) with last_type := some "choice".data } := by
  unfold processLine
  unfold strippedOf at h1 h2
  rw [if_neg h1, if_pos h2]
  rw [show (dedent st (raw.length - (raw.dropWhile isPySpace).length)).current_opt =
      some (k, j) from (dedent_current_opt st _).trans h3]
  unfold choiceValueOf strippedOf at hv
  dsimp only
  rw [if_pos hv]
  rfl

theorem processLine_choice_some_app (st : ParseState) (raw : List Char) (k j : Nat)
    (h1 : strippedOf raw ≠ []) (h2 : (strippedOf raw).head? = some '=')
    (h3 : st.current_opt = some (k, j)) (hv : choiceValueOf raw ≠ []) :
    processLine st raw =
      { dedent st (indentOf raw) with
        options := appendChoiceAt st.options k j ⟨choiceValueOf raw, choiceDescOf raw⟩,
        last_type := some "choice".data } := by
  unfold processLine
  unfold strippedOf at h1 h2
  rw [if_neg h1, if_pos h2]
  rw [show (dedent st (raw.length - (raw.dropWhile isPySpace).length)).current_opt =
      some (k, j) from (dedent_current_opt st _).trans h3]
  unfold choiceValueOf strippedOf at hv
  dsimp only
  rw [if_neg hv]
  unfold choiceValueOf choiceDescOf indentOf strippedOf
  rw [dedent_options]
  rw [(dedent_current_opt st (raw.length - (raw.dropWhile isPySpace).length)).trans h3]

theorem processLine_header (st : ParseState) (raw : List Char) (c : Char)
    (h1 : strippedOf raw ≠ []) (hc : (strippedOf raw).head? = some c)
    (hne : c ≠ '=') (hnd : c ≠ '-') :
    processLine st raw =
      { dedent st (indentOf raw) with
        state := HelpState.new_state_on_header (dedent st (indentOf raw)).state (strippedOf raw),
        current := none, current_opt := none,
        last_type := some "other".data, last_pass_indent := none } := by
  unfold processLine
  unfold strippedOf at h1 hc
  rw [if_neg h1]
  rw [if_neg (show ¬ ((raw.dropWhile isPySpace).head? = some '=') from by
    rw [hc]; intro h; exact hne (Option.some.inj h))]
  rw [if_pos (show ¬ ((raw.dropWhile isPySpace).head? = some '-') from by
    rw [hc]; intro h; exact hnd (Option.some.inj h))]
  rfl

theorem processLine_nosep (st : ParseState) (raw : List Char)
    (h1 : strippedOf raw ≠ []) (hd : (strippedOf raw).head? = some '-')
    (hsep : (partitionStr (strippedOf raw) optSep).2.1 = false) :
    processLine st raw =
      { dedent st (indentOf raw) with
        current := none, current_opt := none, last_type := some "other".data } := by
  unfold processLine
  unfold strippedOf at h1 hd
  unfold optSep strippedOf at hsep
  rw [if_neg h1]
  rw [if_neg (show ¬ ((raw.dropWhile isPySpace).head? = some '=') from by
    rw [hd]; intro h; exact absurd (Option.some.inj h) (by decide))]
  rw [if_neg (show ¬ ¬ ((raw.dropWhile isPySpace).head? = some '-') from not_not_intro hd)]
  rw [if_pos hsep]
  rfl

theorem processLine_skip_empty_spec (st : ParseState) (raw : List Char)
    (h1 : strippedOf raw ≠ []) (hd : (strippedOf raw).head? = some '-')
    (hsep : (partitionStr (strippedOf raw) optSep).2.1 = true)
    (hop : optionPartOf raw = []) :
    processLine st raw = dedent st (indentOf raw) := by
  unfold processLine
  unfold strippedOf at h1 hd
  unfold optSep strippedOf at hsep
  unfold optionPartOf optSep strippedOf at hop
  rw [if_neg h1]
  rw [if_neg (show ¬ ((raw.dropWhile isPySpace).head? = some '=') from by
    rw [hd]; intro h; exact absurd (Option.some.inj h) (by decide))]
  rw [if_neg (show ¬ ¬ ((raw.dropWhile isPySpace).head? = some '-') from not_not_intro hd)]
  rw [if_neg (show ¬ ((partitionStr (raw.dropWhile isPySpace) (' ' :: '-' :: ' ' :: [])).2.1 = false) from by
    rw [hsep]; simp)]
  rw [if_pos hop]
  rfl

theorem processLine_skip_empty_name (st : ParseState) (raw : List Char)
    (h1 : strippedOf raw ≠ []) (hd : (strippedOf raw).head? = some '-')
    (hsep : (partitionStr (strippedOf raw) optSep).2.1 = true)
    (hop : optionPartOf raw ≠ []) (hname : (decodedOf raw).1 = []) :
    processLine st raw = dedent st (indentOf raw) := by
  unfold processLine
  unfold strippedOf at h1 hd
  unfold optSep strippedOf at hsep
  unfold optionPartOf optSep strippedOf at hop
  unfold decodedOf optionPartOf optSep strippedOf at hname
  rw [if_neg h1]
  rw [if_neg (show ¬ ((raw.dropWhile isPySpace).head? = some '=') from by
    rw [hd]; intro h; exact absurd (Option.some.inj h) (by decide))]
  rw [if_neg (show ¬ ¬ ((raw.dropWhile isPySpace).head? = some '-') from not_not_intro hd)]
  rw [if_neg (show ¬ ((partitionStr (raw.dropWhile isPySpace) (' ' :: '-' :: ' ' :: [])).2.1 = false) from by
    rw [hsep]; simp)]
  rw [if_neg hop]
  rw [if_pos hname]
  rfl

theorem processLine_option (st : ParseState) (raw : List Char)
    (h1 : strippedOf raw ≠ []) (hd : (strippedOf raw).head? = some '-')
    (hsep : (partitionStr (strippedOf raw) optSep).2.1 = true)
    (hop : optionPartOf raw ≠ []) (hname : (decodedOf raw).1 ≠ []) :
    processLine st raw =
      processOption (dedent st (indentOf raw)) (strippedOf raw) (indentOf raw)
        (decodedOf raw) (descriptionOf raw) := by
  unfold processLine
  unfold strippedOf at h1 hd
  unfold optSep strippedOf at hsep
  unfold optionPartOf optSep strippedOf at hop
  unfold decodedOf optionPartOf optSep strippedOf at hname
  rw [if_neg h1]
  rw [if_neg (show ¬ ((raw.dropWhile isPySpace).head? = some '=') from by
    rw [hd]; intro h; exact absurd (Option.some.inj h) (by decide))]
  rw [if_neg (show ¬ ¬ ((raw.dropWhile isPySpace).head? = some '-') from not_not_intro hd)]
  rw [if_neg (show ¬ ((partitionStr (raw.dropWhile isPySpace) (' ' :: '-' :: ' ' :: [])).2.1 = false) from by
    rw [hsep]; simp)]
  rw [if_neg hop]
  rw [if_neg hname]
  rfl

theorem processOption_top (st1 : ParseState) (stripped : List Char) (indent : Nat)
    (dec : List Char × List Char × List Char × List Char) (description : List Char)
    (h : ∀ k lpi, ¬ (st1.current = some k ∧ st1.last_pass_indent = some lpi ∧
      indent = lpi + 2 ∧ dashes.isPrefixOf stripped = true)) :
    processOption st1 stripped indent dec description =
      openTopLevel st1 dec description indent := by
  unfold processOption
  cases hc : st1.current with
  | none => rfl
  | some k =>
      cases hl : st1.last_pass_indent with
      | none => rfl
      | some lpi =>
          dsimp only
          rw [if_neg (show ¬ (indent = lpi + 2 ∧ dashes.isPrefixOf stripped = true) from
            fun hh => h k lpi ⟨hc, hl, hh.1, hh.2⟩)]

theorem processOption_pass (st1 : ParseState) (stripped : List Char) (indent : Nat)
    (dec : List Char × List Char × List Char × List Char) (description : List Char)
    (k lpi : Nat)
    (hc : st1.current = some k) (hl : st1.last_pass_indent = some lpi)
    (hi : indent = lpi + 2) (hpre : dashes.isPrefixOf stripped = true)
    (hpn : dec.1.dropWhile (fun c => c = '-') ≠ []) :
    processOption st1 stripped indent dec description =
      { st1 with
        options := appendSubAt st1.options k
          ⟨dec.1.dropWhile (fun c => c = '-'), dec.1.dropWhile (fun c => c = '-'),
           dec.2.2.1, description, dec.2.2.2, []⟩,
        current_opt := some (k, subCountAt st1.options k),
        last_type := some "pass-option".data } := by
  unfold processOption
  rw [hc, hl]
  dsimp only
  rw [if_pos (And.intro hi hpre)]
  rw [if_neg hpn]

theorem processOption_pass_nil (st1 : ParseState) (stripped : List Char) (indent : Nat)
    (dec : List Char × List Char × List Char × List Char) (description : List Char)
    (k lpi : Nat)
    (hc : st1.current = some k) (hl : st1.last_pass_indent = some lpi)
    (hi : indent = lpi + 2) (hpre : dashes.isPrefixOf stripped = true)
    (hpn : dec.1.dropWhile (fun c => c = '-') = []) :
    processOption st1 stripped indent dec description = st1 := by
  unfold processOption
  rw [hc, hl]
  dsimp only
  rw [if_pos (And.intro hi hpre)]
  rw [if_pos hpn]


theorem choiceValueOf_ok (raw : List Char) : sanitizedOk (choiceValueOf raw) = true := by
  unfold choiceValueOf
  exact sanitize_sanitizedOk _

theorem choiceDescOf_ok (raw : List Char) : sanitizedOk (choiceDescOf raw) = true := by
  unfold choiceDescOf
  exact sanitize_sanitizedOk _

theorem descriptionOf_ok (raw : List Char) : sanitizedOk (descriptionOf raw) = true := by
  unfold descriptionOf
  exact sanitize_sanitizedOk _

theorem all_updateAt {p : α → Bool} {f : α → α}
    (hf : ∀ x, p x = true → p (f x) = true) (l : List α) (n : Nat)
    (h : l.all p = true) : (updateAt l n f).all p = true := by
  induction l generalizing n with
  | nil => rfl
  | cons x xs ih =>
      rw [List.all_cons, Bool.and_eq_true] at h
      cases n with
      | zero =>
          rw [show updateAt (x :: xs) 0 f = f x :: xs from rfl, List.all_cons,
            hf x h.1, h.2]
          rfl
      | succ m =>
          rw [show updateAt (x :: xs) (m + 1) f = x :: updateAt xs m f from rfl,
            List.all_cons, h.1, ih m h.2]
          rfl

theorem recOk_appendChoice (r : OptionRecord) (j : Nat) (ch : Choice)
    (h : recOk r = true) (hch : choiceOk ch = true) :
    recOk { r with sub_options := updateAt r.sub_options j (fun p => { p with choices := p.choices ++ [ch] }) } = true := by
  unfold recOk at h ⊢
  rw [Bool.and_eq_true, Bool.and_eq_true] at h
  obtain ⟨⟨hd, hc⟩, hs⟩ := h
  rw [Bool.and_eq_true, Bool.and_eq_true]
  refine ⟨⟨hd, hc⟩, ?_⟩
  refine all_updateAt ?_ _ _ hs
  intro p hp
  unfold subOk at hp ⊢
  rw [Bool.and_eq_true] at hp
  rw [Bool.and_eq_true]
  refine ⟨hp.1, ?_⟩
  rw [List.all_append, Bool.and_eq_true]
  exact ⟨hp.2, by rw [List.all_cons, hch]; rfl⟩

theorem recOk_appendSub (r : OptionRecord) (p : PassOption)
    (h : recOk r = true) (hp : subOk p = true) :
    recOk { r with sub_options := r.sub_options ++ [p] } = true := by
  unfold recOk at h ⊢
  rw [Bool.and_eq_true, Bool.and_eq_true] at h
  obtain ⟨⟨hd, hc⟩, hs⟩ := h
  rw [Bool.and_eq_true, Bool.and_eq_true]
  refine ⟨⟨hd, hc⟩, ?_⟩
  rw [List.all_append, Bool.and_eq_true]
  exact ⟨hs, by rw [List.all_cons, hp]; rfl⟩

theorem processLine_options_shape (st : ParseState) (raw : List Char) :
    (processLine st raw).options = st.options
    ∨ (∃ k j ch, choiceOk ch = true ∧
        (processLine st raw).options = appendChoiceAt st.options k j ch)
    ∨ (∃ k p, subOk p = true ∧
        (processLine st raw).options = appendSubAt st.options k p)
    ∨ (∃ r, recOk r = true ∧
        (processLine st raw).options = st.options ++ [r]) := by
  by_cases h1 : strippedOf raw = []
  · left
    rw [processLine_blank st raw h1]
  · cases hh : (strippedOf raw).head? with
    | none => exact absurd (List.head?_eq_none_iff.mp hh) h1
    | some c =>
      by_cases hc : c = '='
      · subst hc
        cases hco : st.current_opt with
        | none =>
            left
            rw [processLine_choice_none st raw h1 hh hco, dedent_options]
        | some kj =>
            obtain ⟨k, j⟩ := kj
            by_cases hv : choiceValueOf raw = []
            · left
              rw [processLine_choice_some_nil st raw k j h1 hh hco hv, dedent_options]
            · right; left
              refine ⟨k, j, ⟨choiceValueOf raw, choiceDescOf raw⟩, ?_, ?_⟩
              · unfold choiceOk
                rw [choiceValueOf_ok, choiceDescOf_ok]
                rfl
              · rw [processLine_choice_some_app st raw k j h1 hh hco hv]
      · by_cases hd : c = '-'
        · subst hd
          cases hsep : (partitionStr (strippedOf raw) optSep).2.1 with
          | false =>
              left
              rw [processLine_nosep st raw h1 hh hsep, dedent_options]
          | true =>
              by_cases hop : optionPartOf raw = []
              · left
                rw [processLine_skip_empty_spec st raw h1 hh hsep hop, dedent_options]
              · by_cases hname : (decodedOf raw).1 = []
                · left
                  rw [processLine_skip_empty_name st raw h1 hh hsep hop hname,
                    dedent_options]
                · rw [processLine_option st raw h1 hh hsep hop hname]
                  by_cases hpass : ∃ k lpi,
                      st.current = some k ∧ st.last_pass_indent = some lpi ∧
                      indentOf raw = lpi + 2 ∧ dashes.isPrefixOf (strippedOf raw) = true
                  · obtain ⟨k, lpi, hcur, hlpi, hi, hpre⟩ := hpass
                    have hcur1 : (dedent st (indentOf raw)).current = some k :=
                      (dedent_current st _).trans hcur
                    have hlpi1 : (dedent st (indentOf raw)).last_pass_indent = some lpi :=
                      (dedent_last_pass_indent st _).trans hlpi
                    by_cases hpn : (decodedOf raw).1.dropWhile (fun c => c = '-') = []
                    · left
                      rw [processOption_pass_nil (dedent st (indentOf raw)) (strippedOf raw)
                        (indentOf raw) (decodedOf raw) (descriptionOf raw) k lpi hcur1 hlpi1
                        hi hpre hpn, dedent_options]
                    · right; right; left
                      refine ⟨k, ⟨(decodedOf raw).1.dropWhile (fun c => c = '-'),
                        (decodedOf raw).1.dropWhile (fun c => c = '-'),
                        (decodedOf raw).2.2.1, descriptionOf raw, (decodedOf raw).2.2.2, []⟩,
                        ?_, ?_⟩
                      · unfold subOk
                        rw [descriptionOf_ok]
                        rfl
                      · rw [processOption_pass (dedent st (indentOf raw)) (strippedOf raw)
                          (indentOf raw) (decodedOf raw) (descriptionOf raw) k lpi hcur1
                          hlpi1 hi hpre hpn]
                        rw [dedent_options]
                  · right; right; right
                    refine ⟨⟨(decodedOf raw).1,
                      HelpState.category (dedent st (indentOf raw)).state (decodedOf raw).1,
                      (decodedOf raw).2.1, (decodedOf raw).2.2.1, descriptionOf raw,
                      (decodedOf raw).2.2.2, [], []⟩, ?_, ?_⟩
                    · unfold recOk
                      rw [descriptionOf_ok]
                      rfl
                    · rw [processOption_top (dedent st (indentOf raw)) (strippedOf raw)
                        (indentOf raw) (decodedOf raw) (descriptionOf raw) ?_]
                      · rw [show (openTopLevel (dedent st (indentOf raw)) (decodedOf raw)
                          (descriptionOf raw) (indentOf raw)).options =
                          (dedent st (indentOf raw)).options ++ [_] from rfl]
                        rw [dedent_options]
                      · intro k lpi hcontra
                        exact hpass ⟨k, lpi, (dedent_current st _).symm.trans hcontra.1,
                          (dedent_last_pass_indent st _).symm.trans hcontra.2.1,
                          hcontra.2.2.1, hcontra.2.2.2⟩
        · left
          rw [processLine_header st raw c h1 hh hc hd, dedent_options]


theorem appendChoiceAt_length (opts : List OptionRecord) (k j : Nat) (ch : Choice) :
    (appendChoiceAt opts k j ch).length = opts.length := by
  unfold appendChoiceAt
  exact updateAt_length _ _ _

theorem appendSubAt_length (opts : List OptionRecord) (k : Nat) (p : PassOption) :
    (appendSubAt opts k p).length = opts.length := by
  unfold appendSubAt
  exact updateAt_length _ _ _

theorem processLine_length_mono (st : ParseState) (raw : List Char) :
    st.options.length ≤ (processLine st raw).options.length := by
  rcases processLine_options_shape st raw with heq | ⟨k, j, ch, _, heq⟩ |
    ⟨k, p, _, heq⟩ | ⟨r, _, heq⟩
  · rw [heq]
  · rw [heq, appendChoiceAt_length]
  · rw [heq, appendSubAt_length]
  · rw [heq, List.length_append]
    exact Nat.le_add_right _ _

theorem CatalogOk_step (st : ParseState) (raw : List Char)
    (h : CatalogOk st.options) : CatalogOk (processLine st raw).options := by
  rcases processLine_options_shape st raw with heq | ⟨k, j, ch, hch, heq⟩ |
    ⟨k, p, hp, heq⟩ | ⟨r, hr, heq⟩
  · rw [heq]; exact h
  · rw [heq]
    intro x hx
    unfold appendChoiceAt at hx
    rcases mem_updateAt hx with hm | ⟨b, hb, hxb⟩
    · exact h x hm
    · rw [hxb]
      exact recOk_appendChoice b j ch (h b hb) hch
  · rw [heq]
    intro x hx
    unfold appendSubAt at hx
    rcases mem_updateAt hx with hm | ⟨b, hb, hxb⟩
    · exact h x hm
    · rw [hxb]
      exact recOk_appendSub b p (h b hb) hp
  · rw [heq]
    intro x hx
    rcases List.mem_append.mp hx with hm | hm
    · exact h x hm
    · rw [List.mem_singleton.mp hm]
      exact hr

theorem CatalogOk_foldl (lines : List (List Char)) (st : ParseState)
    (h : CatalogOk st.options) : CatalogOk ((lines.foldl processLine st).options) := by
  induction lines generalizing st with
  | nil => exact h
  | cons l ls ih => exact ih _ (CatalogOk_step st l h)


theorem processLine_topLevel (st : ParseState) (raw : List Char)
    (h1 : strippedOf raw ≠ []) (hd : (strippedOf raw).head? = some '-')
    (hsep : (partitionStr (strippedOf raw) optSep).2.1 = true)
    (hop : optionPartOf raw ≠ []) (hname : (decodedOf raw).1 ≠ [])
    (hnp : ¬ ∃ k lpi, st.current = some k ∧ st.last_pass_indent = some lpi ∧
      indentOf raw = lpi + 2 ∧ dashes.isPrefixOf (strippedOf raw) = true) :
    processLine st raw =
      openTopLevel (dedent st (indentOf raw)) (decodedOf raw) (descriptionOf raw)
        (indentOf raw) := by
  rw [processLine_option st raw h1 hd hsep hop hname]
  refine processOption_top _ _ _ _ _ ?_
  intro k lpi hcontra
  exact hnp ⟨k, lpi, (dedent_current st _).symm.trans hcontra.1,
    (dedent_last_pass_indent st _).symm.trans hcontra.2.1, hcontra.2.2.1, hcontra.2.2.2⟩

theorem processLine_dash_state (st : ParseState) (raw : List Char)
    (h1 : strippedOf raw ≠ []) (hd : (strippedOf raw).head? = some '-') :
    (processLine st raw).state = (dedent st (indentOf raw)).state := by
  cases hsep : (partitionStr (strippedOf raw) optSep).2.1 with
  | false => rw [processLine_nosep st raw h1 hd hsep]
  | true =>
      by_cases hop : optionPartOf raw = []
      · rw [processLine_skip_empty_spec st raw h1 hd hsep hop]
      · by_cases hname : (decodedOf raw).1 = []
        · rw [processLine_skip_empty_name st raw h1 hd hsep hop hname]
        · rw [processLine_option st raw h1 hd hsep hop hname]
          by_cases hpass : ∃ k lpi, st.current = some k ∧ st.last_pass_indent = some lpi ∧
              indentOf raw = lpi + 2 ∧ dashes.isPrefixOf (strippedOf raw) = true
          · obtain ⟨k, lpi, hcur, hlpi, hi, hpre⟩ := hpass
            by_cases hpn : (decodedOf raw).1.dropWhile (fun c => c = '-') = []
            · rw [processOption_pass_nil _ _ _ _ _ k lpi ((dedent_current st _).trans hcur)
                ((dedent_last_pass_indent st _).trans hlpi) hi hpre hpn]
            · rw [processOption_pass _ _ _ _ _ k lpi ((dedent_current st _).trans hcur)
                ((dedent_last_pass_indent st _).trans hlpi) hi hpre hpn]
          · rw [processOption_top _ _ _ _ _ (fun k lpi hcontra => hpass ⟨k, lpi,
              (dedent_current st _).symm.trans hcontra.1,
              (dedent_last_pass_indent st _).symm.trans hcontra.2.1,
              hcontra.2.2.1, hcontra.2.2.2⟩)]
            rfl

theorem processLine_dash_lpi (st : ParseState) (raw : List Char)
    (h1 : strippedOf raw ≠ []) (hd : (strippedOf raw).head? = some '-') :
    ((processLine st raw).options.length = st.options.length + 1 ∧
      (processLine st raw).last_pass_indent = some (indentOf raw))
    ∨ ((processLine st raw).options.length = st.options.length ∧
      (processLine st raw).last_pass_indent = st.last_pass_indent) := by
  cases hsep : (partitionStr (strippedOf raw) optSep).2.1 with
  | false =>
      right
      rw [processLine_nosep st raw h1 hd hsep]
      exact ⟨congrArg List.length (dedent_options st _), dedent_last_pass_indent st _⟩
  | true =>
      by_cases hop : optionPartOf raw = []
      · right
        rw [processLine_skip_empty_spec st raw h1 hd hsep hop]
        exact ⟨congrArg List.length (dedent_options st _), dedent_last_pass_indent st _⟩
      · by_cases hname : (decodedOf raw).1 = []
        · right
          rw [processLine_skip_empty_name st raw h1 hd hsep hop hname]
          exact ⟨congrArg List.length (dedent_options st _), dedent_last_pass_indent st _⟩
        · rw [processLine_option st raw h1 hd hsep hop hname]
          by_cases hpass : ∃ k lpi, st.current = some k ∧ st.last_pass_indent = some lpi ∧
              indentOf raw = lpi + 2 ∧ dashes.isPrefixOf (strippedOf raw) = true
          · obtain ⟨k, lpi, hcur, hlpi, hi, hpre⟩ := hpass
            by_cases hpn : (decodedOf raw).1.dropWhile (fun c => c = '-') = []
            · right
              rw [processOption_pass_nil _ _ _ _ _ k lpi ((dedent_current st _).trans hcur)
                ((dedent_last_pass_indent st _).trans hlpi) hi hpre hpn]
              exact ⟨congrArg List.length (dedent_options st _), dedent_last_pass_indent st _⟩
            · right
              rw [processOption_pass _ _ _ _ _ k lpi ((dedent_current st _).trans hcur)
                ((dedent_last_pass_indent st _).trans hlpi) hi hpre hpn]
              constructor
              · rw [show ({ dedent st (indentOf raw) with
                    options := appendSubAt (dedent st (indentOf raw)).options k
                      ⟨(decodedOf raw).1.dropWhile (fun c => c = '-'),
                       (decodedOf raw).1.dropWhile (fun c => c = '-'),
                       (decodedOf raw).2.2.1, descriptionOf raw, (decodedOf raw).2.2.2, []⟩,
                    current_opt := some (k, subCountAt (dedent st (indentOf raw)).options k),
                    last_type := some "pass-option".data } : ParseState).options =
                  appendSubAt (dedent st (indentOf raw)).options k
                      ⟨(decodedOf raw).1.dropWhile (fun c => c = '-'),
                       (decodedOf raw).1.dropWhile (fun c => c = '-'),
                       (decodedOf raw).2.2.1, descriptionOf raw, (decodedOf raw).2.2.2, []⟩
                  from rfl]
                rw [appendSubAt_length, dedent_options]
              · exact dedent_last_pass_indent st _
          · left
            rw [processOption_top _ _ _ _ _ (fun k lpi hcontra => hpass ⟨k, lpi,
              (dedent_current st _).symm.trans hcontra.1,
              (dedent_last_pass_indent st _).symm.trans hcontra.2.1,
              hcontra.2.2.1, hcontra.2.2.2⟩)]
            constructor
            · rw [show (openTopLevel (dedent st (indentOf raw)) (decodedOf raw)
                  (descriptionOf raw) (indentOf raw)).options =
                  (dedent st (indentOf raw)).options ++
                  [⟨(decodedOf raw).1,
                    HelpState.category (dedent st (indentOf raw)).state (decodedOf raw).1,
                    (decodedOf raw).2.1, (decodedOf raw).2.2.1, descriptionOf raw,
                    (decodedOf raw).2.2.2, [], []⟩] from rfl]
              rw [List.length_append, dedent_options]
              rfl
            · rfl

theorem processLine_dedent_congr (st st2 : ParseState) (raw : List Char)
    (hne : strippedOf raw ≠ [])
    (h : dedent st (indentOf raw) = dedent st2 (indentOf raw)) :
    processLine st raw = processLine st2 raw := by
  unfold processLine
  unfold strippedOf at hne
  unfold indentOf strippedOf at h
  rw [if_neg hne, if_neg hne]
  dsimp only
  rw [h]

theorem processLine_choice_state (st : ParseState) (raw : List Char)
    (hne : strippedOf raw ≠ []) (h2 : (strippedOf raw).head? = some '=') :
    (processLine st raw).state = (dedent st (indentOf raw)).state := by
  cases hco : st.current_opt with
  | none => rw [processLine_choice_none st raw hne h2 hco]
  | some kj =>
      obtain ⟨k, j⟩ := kj
      by_cases hv : choiceValueOf raw = []
      · rw [processLine_choice_some_nil st raw k j hne h2 hco hv]
      · rw [processLine_choice_some_app st raw k j hne h2 hco hv]

theorem dedent_state_some (st : ParseState) (i p : Nat)
    (h : st.last_pass_indent = some p) :
    (dedent st i).state =
      if (i : Int) ≤ (p : Int) - 4 ∧ st.state = HelpState.MLIR_PIPELINES
      then HelpState.GENERAL_LLVM else st.state := by
  unfold dedent
  rw [h]
  dsimp only
  by_cases hc : (i : Int) ≤ (p : Int) - 4 ∧ st.state = HelpState.MLIR_PIPELINES
  · rw [if_pos hc, if_pos hc]
  · rw [if_neg hc, if_neg hc]


/-- C1 counterexample: parsing the same option name twice appends two records
(the claim says names are unique and descriptions merge); the first record
keeps its empty description instead of being backfilled with D. -/
theorem parse_help_duplicate_names_cex :
    (parse_help "--foo - \n--foo - D").map OptionRecord.name =
      ["--foo".data, "--foo".data] ∧
    (parse_help "--foo - \n--foo - D").map OptionRecord.description =
      [[], "D".data] := by
  decide

/-- C2: evaluating the code at the failing input: a choice line directly
under an open top-level option is dropped, the record keeps no choices
(the spec says it should be appended to the open top-level option). -/
theorem parse_help_top_level_choice_dropped :
    parse_help "--foo - d\n  =4 - x" =
      [⟨"--foo".data, OptionCategory.LLVM, "--foo".data, "flag".data, "d".data, [], [], []⟩] := by
  decide

/-- C3 counterexample: the four-line example text parses to exactly one
OptionRecord, not two as the claim states. -/
theorem parse_help_c3_single_record_cex :
    (parse_help ("General options:\n  --affine-loop-tile=<uint>          - Tile size\n      =4                              - default\n    --mode <string>                    - Operating mode")).length = 1 := by
  decide

/-- C3 amended: the example text parses to one record, --affine-loop-tile
(category LLVM since the name lacks the --mlir- prefix, style attached,
value hint with angle brackets kept, no choices, since the choice line has no
open sub-option), which absorbs --mode as a sub-option because its
indentation is the record indentation plus two. -/
theorem parse_help_c3_actual_catalog :
    parse_help ("General options:\n  --affine-loop-tile=<uint>          - Tile size\n      =4                              - default\n    --mode <string>                    - Operating mode") =
      [⟨"--affine-loop-tile".data, OptionCategory.LLVM, "--affine-loop-tile=".data,
        "attached".data, "Tile size".data, "<uint>".data, [],
        [⟨"mode".data, "mode".data, "separate".data, "Operating mode".data,
          "<string>".data, []⟩]⟩] := by
  decide

/-- C4 counterexample: a choice line whose value contains a dash is split at
the first dash, not at the three-character separator: value foo and
description bar - baz, not value foo-bar and description baz. -/
theorem choice_split_first_dash_cex :
    parse_help "--p - d\n  --sub - sd\n  =foo-bar - baz" =
      [⟨"--p".data, OptionCategory.LLVM, "--p".data, "flag".data, "d".data, [], [],
        [⟨"sub".data, "sub".data, "flag".data, "sd".data, [],
          [⟨"foo".data, "bar - baz".data⟩]⟩]⟩] := by
  decide

/-- C5 counterexample: the line consisting of two dashes at the enclosing
option indentation plus two satisfies every condition of the claim but is
neither attached as a sub-option (its dash-stripped name is empty) nor
treated as a new top-level option. -/
theorem sub_option_blank_name_cex :
    parse_help "--a - d\n  -- - x" =
      [⟨"--a".data, OptionCategory.LLVM, "--a".data, "flag".data, "d".data, [], [], []⟩] := by
  decide

/-- C8 counterexample: decoding --flag=<value> yields the value hint
<value> with the angle brackets kept, not the unwrapped value the claim
states. -/
theorem decode_attached_hint_cex :
    decode_option "--flag=<value>".data =
      ("--flag".data, "--flag=".data, "attached".data, "<value>".data) ∧
    "<value>".data ≠ "value".data := by
  decide

/-- C9: parse_help and decode_option are total functions and malformed lines
only shrink the catalog: the option list never loses records on any line;
decode_option of empty input returns an empty name with flag style; a
dash-initial line without the separator, a choice line with no open
sub-option, and an option line with an empty option spec all leave the
catalog unchanged. -/
theorem parser_skips_malformed :
    (∀ st raw, st.options.length ≤ (processLine st raw).options.length)
    ∧ decode_option [] = ([], [], "flag".data, [])
    ∧ (∀ st raw, strippedOf raw ≠ [] → (strippedOf raw).head? = some '-' →
        (partitionStr (strippedOf raw) optSep).2.1 = false →
        (processLine st raw).options = st.options)
    ∧ (∀ st raw, strippedOf raw ≠ [] → (strippedOf raw).head? = some '=' →
        st.current_opt = none → (processLine st raw).options = st.options)
    ∧ (∀ st raw, strippedOf raw ≠ [] → (strippedOf raw).head? = some '-' →
        (partitionStr (strippedOf raw) optSep).2.1 = true → optionPartOf raw = [] →
        (processLine st raw).options = st.options) := by
  refine ⟨processLine_length_mono, rfl, ?_, ?_, ?_⟩
  · intro st raw h1 hd hsep
    rw [processLine_nosep st raw h1 hd hsep]
    exact dedent_options st _
  · intro st raw h1 h2 h3
    rw [processLine_choice_none st raw h1 h2 h3]
    exact dedent_options st _
  · intro st raw h1 hd hsep hop
    rw [processLine_skip_empty_spec st raw h1 hd hsep hop]
    exact dedent_options st _

/-- C9 witness: the skip conclusions at concrete inputs: a wrapped dash line
without separator, a choice line with no open sub-option, and the length
bound at a concrete state. -/
theorem parser_skips_malformed_w :
    (processLine initState "--wrapped continuation".data).options = initState.options
    ∧ (processLine initState "  =4 - x".data).options = initState.options
    ∧ initState.options.length ≤ (processLine initState "--a - d".data).options.length := by
  refine ⟨?_, ?_, ?_⟩
  · exact parser_skips_malformed.2.2.1 initState "--wrapped continuation".data
      (by decide) (by decide) (by decide)
  · exact parser_skips_malformed.2.2.2.1 initState "  =4 - x".data
      (by decide) (by decide) rfl
  · exact parser_skips_malformed.1 initState "--a - d".data

/-- C10: every description of a record or sub-option and every value and
description of a choice in the catalog returned by parse_help is sanitized:
no leading or trailing whitespace, whitespace runs collapsed to one plain
space, and no U+001F field separator. -/
theorem catalog_text_sanitized (text : String) : CatalogOk (parse_help text) := by
  unfold parse_help
  refine CatalogOk_foldl _ _ ?_
  intro r hr
  exact absurd hr (List.not_mem_nil r)

/-- C10 witness: the record parsed from a description holding a field
separator and a whitespace run is sanitized. -/
theorem catalog_text_sanitized_w :
    recOk ⟨"--foo".data, OptionCategory.LLVM, "--foo".data, "flag".data,
      "a b".data, [], [], []⟩ = true :=
  catalog_text_sanitized "--foo - a\x1f  b"
    ⟨"--foo".data, OptionCategory.LLVM, "--foo".data, "flag".data,
      "a b".data, [], [], []⟩ (by decide)


/-- C1 amended: a top-level option line always appends a new record, even
when its decoded name equals the name of a record already in the catalog;
the existing record keeps its name and description unchanged (no merge, no
description backfill), and the appended record carries the duplicate name. -/
theorem parse_help_append_never_merges (st : ParseState) (raw : List Char)
    (k : Nat) (r : OptionRecord)
    (hk : st.options.get? k = some r)
    (h1 : strippedOf raw ≠ []) (hd : (strippedOf raw).head? = some '-')
    (hsep : (partitionStr (strippedOf raw) optSep).2.1 = true)
    (hop : optionPartOf raw ≠ []) (hname : (decodedOf raw).1 ≠ [])
    (hcur : st.current = none)
    (hdup : (decodedOf raw).1 = r.name) :
    ((processLine st raw).options.get? k).map (fun x => (x.name, x.description)) =
      some (r.name, r.description)
    ∧ (processLine st raw).options.length = st.options.length + 1
    ∧ ((processLine st raw).options.getLast?).map OptionRecord.name = some r.name := by
  have hnp : ¬ ∃ k' lpi, st.current = some k' ∧ st.last_pass_indent = some lpi ∧
      indentOf raw = lpi + 2 ∧ dashes.isPrefixOf (strippedOf raw) = true := by
    rintro ⟨k', lpi, hc, -⟩
    rw [hcur] at hc
    exact Option.noConfusion hc
  have hlt : k < st.options.length := by
    by_contra hge
    push_neg at hge
    rw [List.get?_eq_none.mpr hge] at hk
    exact Option.noConfusion hk
  rw [processLine_topLevel st raw h1 hd hsep hop hname hnp]
  rw [show (openTopLevel (dedent st (indentOf raw)) (decodedOf raw) (descriptionOf raw)
      (indentOf raw)).options =
      (dedent st (indentOf raw)).options ++
      [⟨(decodedOf raw).1,
        HelpState.category (dedent st (indentOf raw)).state (decodedOf raw).1,
        (decodedOf raw).2.1, (decodedOf raw).2.2.1, descriptionOf raw,
        (decodedOf raw).2.2.2, [], []⟩] from rfl]
  rw [dedent_options]
  refine ⟨?_, ?_, ?_⟩
  · rw [List.get?_append hlt, hk]
    rfl
  · rw [List.length_append]
    rfl
  · rw [List.getLast?_concat]
    exact congrArg some hdup

/-- C1 witness: processing a second --foo line on a state whose catalog
already holds a --foo record with empty description appends a duplicate
instead of merging. -/
theorem parse_help_append_never_merges_w :
    ((processLine ⟨[⟨"--foo".data, OptionCategory.LLVM, "--foo".data, "flag".data,
        [], [], [], []⟩], none, none, none, none, HelpState.GENERAL_LLVM⟩
      "--foo - D".data).options.get? 0).map (fun x => (x.name, x.description)) =
      some ("--foo".data, [])
    ∧ (processLine ⟨[⟨"--foo".data, OptionCategory.LLVM, "--foo".data, "flag".data,
        [], [], [], []⟩], none, none, none, none, HelpState.GENERAL_LLVM⟩
      "--foo - D".data).options.length = 2
    ∧ (((processLine ⟨[⟨"--foo".data, OptionCategory.LLVM, "--foo".data, "flag".data,
        [], [], [], []⟩], none, none, none, none, HelpState.GENERAL_LLVM⟩
      "--foo - D".data).options.getLast?).map OptionRecord.name) = some "--foo".data := by
  have h := parse_help_append_never_merges
    ⟨[⟨"--foo".data, OptionCategory.LLVM, "--foo".data, "flag".data,
      [], [], [], []⟩], none, none, none, none, HelpState.GENERAL_LLVM⟩
    "--foo - D".data 0
    ⟨"--foo".data, OptionCategory.LLVM, "--foo".data, "flag".data, [], [], [], []⟩
    rfl (by decide) (by decide) (by decide) (by decide) (by decide) rfl (by decide)
  exact ⟨h.1, h.2.1, h.2.2⟩

/-- C4 amended: a choice line under an open sub-option is split at the first
dash character (not at the three-character separator): the value is the text
before the first dash with leading equal signs removed, whitespace
normalized; the description is the text after that dash, whitespace
normalized; the choice is appended only when the value is non-empty (so a
choice value can never contain a dash). -/
theorem choice_split_first_dash (st : ParseState) (raw : List Char) (k j : Nat)
    (h1 : strippedOf raw ≠ []) (h2 : (strippedOf raw).head? = some '=')
    (h3 : st.current_opt = some (k, j)) :
    (processLine st raw).options =
      if choiceValueOf raw = [] then st.options
      else appendChoiceAt st.options k j ⟨choiceValueOf raw, choiceDescOf raw⟩ := by
  by_cases hv : choiceValueOf raw = []
  · rw [if_pos hv, processLine_choice_some_nil st raw k j h1 h2 h3 hv]
    exact dedent_options st _
  · rw [if_neg hv, processLine_choice_some_app st raw k j h1 h2 h3 hv]

/-- C4 witness: the choice line =foo-bar - baz under an open sub-option. -/
theorem choice_split_first_dash_w :
    (processLine ⟨[⟨"--p".data, OptionCategory.LLVM, "--p".data, "flag".data,
        "d".data, [], [],
        [⟨"sub".data, "sub".data, "flag".data, "sd".data, [], []⟩]⟩],
      some 0, some (0, 0), none, some 0, HelpState.GENERAL_LLVM⟩
      "  =foo-bar - baz".data).options =
      if choiceValueOf "  =foo-bar - baz".data = []
      then [⟨"--p".data, OptionCategory.LLVM, "--p".data, "flag".data,
        "d".data, [], [],
        [⟨"sub".data, "sub".data, "flag".data, "sd".data, [], []⟩]⟩]
      else appendChoiceAt [⟨"--p".data, OptionCategory.LLVM, "--p".data, "flag".data,
        "d".data, [], [],
        [⟨"sub".data, "sub".data, "flag".data, "sd".data, [], []⟩]⟩] 0 0
        ⟨choiceValueOf "  =foo-bar - baz".data, choiceDescOf "  =foo-bar - baz".data⟩ :=
  choice_split_first_dash
    ⟨[⟨"--p".data, OptionCategory.LLVM, "--p".data, "flag".data, "d".data, [], [],
      [⟨"sub".data, "sub".data, "flag".data, "sd".data, [], []⟩]⟩],
      some 0, some (0, 0), none, some 0, HelpState.GENERAL_LLVM⟩
    "  =foo-bar - baz".data 0 0 (by decide) (by decide) rfl

/-- C5 amended: a decoded option line is attached as a sub-option of record
k exactly when a top-level option is open, a last top-level indent is
recorded, the indentation is that indent plus two, the stripped line starts
with two dashes, and additionally the name with leading dashes removed is
non-empty; when that extra name condition fails the line is skipped
entirely; in every other case a new top-level record is appended and only
then the top-level indent tracker advances. -/
theorem sub_option_attach_iff (st : ParseState) (raw : List Char)
    (h1 : strippedOf raw ≠ []) (hd : (strippedOf raw).head? = some '-')
    (hsep : (partitionStr (strippedOf raw) optSep).2.1 = true)
    (hop : optionPartOf raw ≠ []) (hname : (decodedOf raw).1 ≠ []) :
    (∀ k lpi, st.current = some k → st.last_pass_indent = some lpi →
      indentOf raw = lpi + 2 → dashes.isPrefixOf (strippedOf raw) = true →
      ((decodedOf raw).1.dropWhile (fun c => c = '-') ≠ [] →
        (processLine st raw).options = appendSubAt st.options k
          ⟨(decodedOf raw).1.dropWhile (fun c => c = '-'),
           (decodedOf raw).1.dropWhile (fun c => c = '-'),
           (decodedOf raw).2.2.1, descriptionOf raw, (decodedOf raw).2.2.2, []⟩ ∧
        (processLine st raw).options.length = st.options.length ∧
        (processLine st raw).last_pass_indent = st.last_pass_indent) ∧
      ((decodedOf raw).1.dropWhile (fun c => c = '-') = [] →
        (processLine st raw).options = st.options ∧
        (processLine st raw).last_pass_indent = st.last_pass_indent))
    ∧ ((¬ ∃ k lpi, st.current = some k ∧ st.last_pass_indent = some lpi ∧
        indentOf raw = lpi + 2 ∧ dashes.isPrefixOf (strippedOf raw) = true) →
      (processLine st raw).options = st.options ++
        [⟨(decodedOf raw).1,
          HelpState.category (dedent st (indentOf raw)).state (decodedOf raw).1,
          (decodedOf raw).2.1, (decodedOf raw).2.2.1, descriptionOf raw,
          (decodedOf raw).2.2.2, [], []⟩] ∧
      (processLine st raw).last_pass_indent = some (indentOf raw)) := by
  constructor
  · intro k lpi hcur hlpi hi hpre
    constructor
    · intro hpn
      rw [processLine_option st raw h1 hd hsep hop hname]
      rw [processOption_pass _ _ _ _ _ k lpi ((dedent_current st _).trans hcur)
        ((dedent_last_pass_indent st _).trans hlpi) hi hpre hpn]
      refine ⟨?_, ?_, ?_⟩
      · rw [show ({ dedent st (indentOf raw) with
            options := appendSubAt (dedent st (indentOf raw)).options k
              ⟨(decodedOf raw).1.dropWhile (fun c => c = '-'),
               (decodedOf raw).1.dropWhile (fun c => c = '-'),
               (decodedOf raw).2.2.1, descriptionOf raw, (decodedOf raw).2.2.2, []⟩,
            current_opt := some (k, subCountAt (dedent st (indentOf raw)).options k),
            last_type := some "pass-option".data } : ParseState).options =
          appendSubAt (dedent st (indentOf raw)).options k
              ⟨(decodedOf raw).1.dropWhile (fun c => c = '-'),
               (decodedOf raw).1.dropWhile (fun c => c = '-'),
               (decodedOf raw).2.2.1, descriptionOf raw, (decodedOf raw).2.2.2, []⟩
          from rfl]
        rw [dedent_options]
      · rw [show ({ dedent st (indentOf raw) with
            options := appendSubAt (dedent st (indentOf raw)).options k
              ⟨(decodedOf raw).1.dropWhile (fun c => c = '-'),
               (decodedOf raw).1.dropWhile (fun c => c = '-'),
               (decodedOf raw).2.2.1, descriptionOf raw, (decodedOf raw).2.2.2, []⟩,
            current_opt := some (k, subCountAt (dedent st (indentOf raw)).options k),
            last_type := some "pass-option".data } : ParseState).options =
          appendSubAt (dedent st (indentOf raw)).options k
              ⟨(decodedOf raw).1.dropWhile (fun c => c = '-'),
               (decodedOf raw).1.dropWhile (fun c => c = '-'),
               (decodedOf raw).2.2.1, descriptionOf raw, (decodedOf raw).2.2.2, []⟩
          from rfl]
        rw [appendSubAt_length, dedent_options]
      · exact dedent_last_pass_indent st _
    · intro hpn
      rw [processLine_option st raw h1 hd hsep hop hname]
      rw [processOption_pass_nil _ _ _ _ _ k lpi ((dedent_current st _).trans hcur)
        ((dedent_last_pass_indent st _).trans hlpi) hi hpre hpn]
      exact ⟨dedent_options st _, dedent_last_pass_indent st _⟩
  · intro hnp
    rw [processLine_topLevel st raw h1 hd hsep hop hname hnp]
    constructor
    · rw [show (openTopLevel (dedent st (indentOf raw)) (decodedOf raw)
          (descriptionOf raw) (indentOf raw)).options =
          (dedent st (indentOf raw)).options ++
          [⟨(decodedOf raw).1,
            HelpState.category (dedent st (indentOf raw)).state (decodedOf raw).1,
            (decodedOf raw).2.1, (decodedOf raw).2.2.1, descriptionOf raw,
            (decodedOf raw).2.2.2, [], []⟩] from rfl]
      rw [dedent_options]
    · rfl

/-- C5 witness: a top-level option line on the initial state opens a new
record and advances the indent tracker. -/
theorem sub_option_attach_iff_w :
    (processLine initState "--a - d".data).options =
      initState.options ++
        [⟨"--a".data, OptionCategory.LLVM, "--a".data, "flag".data, "d".data,
          [], [], []⟩]
    ∧ (processLine initState "--a - d".data).last_pass_indent = some 0 := by
  have h := (sub_option_attach_iff initState "--a - d".data (by decide) (by decide)
    (by decide) (by decide) (by decide)).2
    (by rintro ⟨k, lpi, hc, -⟩; exact Option.noConfusion hc)
  constructor
  · rw [h.1]
    decide
  · rw [h.2]
    decide

/-- C6: on any non-blank line, when the state is MLIR_PIPELINES, a recorded
top-level indent p exists, and the line's indentation is at most p minus
four (Python integer arithmetic), the state is reverted to GENERAL_LLVM
before the line is otherwise interpreted: processing the line from the
original state equals processing it from the reverted state; when that
condition fails (in particular in every other section state) the dedent
step is the identity; observably, on dash lines the resulting state is
GENERAL_LLVM exactly under the dedent condition and otherwise unchanged,
and the indent tracker is rewritten to the line indent exactly when a new
top-level record was appended (so the recorded indent is always that of the
last opened top-level option); on choice lines the state is the
post-dedent state; and on header-candidate lines the header table is
applied to the post-dedent state. -/
theorem pipelines_dedent_reverts (st : ParseState) (raw : List Char) (p : Nat)
    (hlpi : st.last_pass_indent = some p)
    (hne : strippedOf raw ≠ []) :
    ((st.state = HelpState.MLIR_PIPELINES ∧ (indentOf raw : Int) ≤ (p : Int) - 4) →
      processLine st raw =
        processLine { st with state := HelpState.GENERAL_LLVM } raw)
    ∧ (¬ (st.state = HelpState.MLIR_PIPELINES ∧ (indentOf raw : Int) ≤ (p : Int) - 4) →
      dedent st (indentOf raw) = st)
    ∧ ((strippedOf raw).head? = some '-' →
      (processLine st raw).state =
        (if st.state = HelpState.MLIR_PIPELINES ∧ (indentOf raw : Int) ≤ (p : Int) - 4
         then HelpState.GENERAL_LLVM else st.state)
      ∧ (processLine st raw).last_pass_indent =
        (if (processLine st raw).options.length = st.options.length + 1
         then some (indentOf raw) else st.last_pass_indent))
    ∧ ((strippedOf raw).head? = some '=' →
      (processLine st raw).state =
        (if st.state = HelpState.MLIR_PIPELINES ∧ (indentOf raw : Int) ≤ (p : Int) - 4
         then HelpState.GENERAL_LLVM else st.state))
    ∧ (∀ c, (strippedOf raw).head? = some c → c ≠ '=' → c ≠ '-' →
      (processLine st raw).state =
        HelpState.new_state_on_header
          (if st.state = HelpState.MLIR_PIPELINES ∧ (indentOf raw : Int) ≤ (p : Int) - 4
           then HelpState.GENERAL_LLVM else st.state)
          (strippedOf raw)) := by
  have hdstate : (dedent st (indentOf raw)).state =
      (if st.state = HelpState.MLIR_PIPELINES ∧ (indentOf raw : Int) ≤ (p : Int) - 4
       then HelpState.GENERAL_LLVM else st.state) := by
    rw [dedent_state_some st _ p hlpi]
    exact if_congr and_comm rfl rfl
  refine ⟨?_, ?_, ?_, ?_, ?_⟩
  · intro hfire
    have h1 : dedent st (indentOf raw) = { st with state := HelpState.GENERAL_LLVM } := by
      unfold dedent
      rw [hlpi]
      dsimp only
      rw [if_pos ⟨hfire.2, hfire.1⟩]
    have h2 : dedent { st with state := HelpState.GENERAL_LLVM } (indentOf raw) =
        { st with state := HelpState.GENERAL_LLVM } := by
      unfold dedent
      rw [show ({ st with state := HelpState.GENERAL_LLVM } : ParseState).last_pass_indent =
        some p from hlpi]
      dsimp only
      rw [if_neg (fun hh => HelpState.noConfusion hh.2)]
    exact processLine_dedent_congr st _ raw hne (h1.trans h2.symm)
  · intro hnofire
    unfold dedent
    rw [hlpi]
    dsimp only
    rw [if_neg (fun hh => hnofire ⟨hh.2, hh.1⟩)]
  · intro hd
    constructor
    · rw [processLine_dash_state st raw hne hd]
      exact hdstate
    · rcases processLine_dash_lpi st raw hne hd with ⟨hlen, hl⟩ | ⟨hlen, hl⟩
      · rw [hl, if_pos hlen]
      · have hneq : ¬ ((processLine st raw).options.length = st.options.length + 1) := by
          rw [hlen]
          omega
        rw [hl, if_neg hneq]
  · intro h2
    rw [processLine_choice_state st raw hne h2]
    exact hdstate
  · intro c hc hce hcd
    rw [processLine_header st raw c hne hc hce hcd]
    show HelpState.new_state_on_header (dedent st (indentOf raw)).state (strippedOf raw) = _
    rw [hdstate]

/-- C6 witness: in the pipelines state with recorded indent 6, an unmatched
header candidate at indent 0 is interpreted exactly as from the reverted
GENERAL_LLVM state, and a dash line at indent 0 ends in GENERAL_LLVM. -/
theorem pipelines_dedent_reverts_w :
    processLine ⟨[], none, none, none, some 6, HelpState.MLIR_PIPELINES⟩ "Other:".data =
      processLine ⟨[], none, none, none, some 6, HelpState.GENERAL_LLVM⟩ "Other:".data
    ∧ (processLine ⟨[], none, none, none, some 6, HelpState.MLIR_PIPELINES⟩
        "--x".data).state = HelpState.GENERAL_LLVM
    ∧ (processLine ⟨[], none, none, none, some 6, HelpState.MLIR_PIPELINES⟩
        "  =4 - x".data).state = HelpState.GENERAL_LLVM := by
  refine ⟨?_, ?_, ?_⟩
  · exact (pipelines_dedent_reverts
      ⟨[], none, none, none, some 6, HelpState.MLIR_PIPELINES⟩
      "Other:".data 6 rfl (by decide)).1 (by decide)
  · have h := ((pipelines_dedent_reverts
      ⟨[], none, none, none, some 6, HelpState.MLIR_PIPELINES⟩
      "--x".data 6 rfl (by decide)).2.2.1 (by decide)).1
    rw [h]
    decide
  · have h := (pipelines_dedent_reverts
      ⟨[], none, none, none, some 6, HelpState.MLIR_PIPELINES⟩
      "  =4 - x".data 6 rfl (by decide)).2.2.2.1 (by decide)
    rw [h]
    decide

/-- C7: the category of a newly opened top-level record is exactly the
active section state applied to the decoded name; the category map sends
MLIR_PASSES to MLIR_PASS, MLIR_PIPELINES to MLIR_PASS_PIPELINE,
GENERIC_OPTIONS to GENERIC, and in GENERAL_LLVM picks MLIR_OPTION exactly
when the name starts with the fixed prefix --mlir- (else LLVM, the ignored
category); the header table maps Passes: to MLIR_PASSES, Pass Pipelines: to
MLIR_PIPELINES, Generic Options: and Color Options: to GENERIC_OPTIONS, and
any header not in the fixed table leaves the state unchanged. -/
theorem category_from_section_state (st : ParseState) (raw : List Char)
    (hdr : List Char)
    (h1 : strippedOf raw ≠ []) (hd : (strippedOf raw).head? = some '-')
    (hsep : (partitionStr (strippedOf raw) optSep).2.1 = true)
    (hop : optionPartOf raw ≠ []) (hname : (decodedOf raw).1 ≠ [])
    (hcur : st.current = none)
    (hhdr : ¬ hdr ∈ ["Generic Options:".data, "General options:".data,
      "IR2Vec Options:".data, "Passes:".data, "Pass Pipelines:".data,
      "Color Options:".data]) :
    (((processLine st raw).options.getLast?).map OptionRecord.category) =
      some (HelpState.category (dedent st (indentOf raw)).state (decodedOf raw).1)
    ∧ (∀ n, HelpState.category HelpState.MLIR_PASSES n = OptionCategory.MLIR_PASS)
    ∧ (∀ n, HelpState.category HelpState.MLIR_PIPELINES n =
        OptionCategory.MLIR_PASS_PIPELINE)
    ∧ (∀ n, HelpState.category HelpState.GENERIC_OPTIONS n = OptionCategory.GENERIC)
    ∧ (∀ n, HelpState.category HelpState.GENERAL_LLVM n =
        if "--mlir-".data.isPrefixOf n then OptionCategory.MLIR_OPTION
        else OptionCategory.LLVM)
    ∧ (∀ s, HelpState.new_state_on_header s "Passes:".data = HelpState.MLIR_PASSES)
    ∧ (∀ s, HelpState.new_state_on_header s "Pass Pipelines:".data =
        HelpState.MLIR_PIPELINES)
    ∧ (∀ s, HelpState.new_state_on_header s "Generic Options:".data =
        HelpState.GENERIC_OPTIONS)
    ∧ (∀ s, HelpState.new_state_on_header s "Color Options:".data =
        HelpState.GENERIC_OPTIONS)
    ∧ (∀ s, HelpState.new_state_on_header s hdr = s) := by
  refine ⟨?_, fun n => rfl, fun n => rfl, fun n => rfl, fun n => rfl,
    fun s => rfl, fun s => rfl, fun s => rfl, fun s => rfl, ?_⟩
  · have hnp : ¬ ∃ k' lpi, st.current = some k' ∧ st.last_pass_indent = some lpi ∧
        indentOf raw = lpi + 2 ∧ dashes.isPrefixOf (strippedOf raw) = true := by
      rintro ⟨k', lpi, hc, -⟩
      rw [hcur] at hc
      exact Option.noConfusion hc
    rw [processLine_topLevel st raw h1 hd hsep hop hname hnp]
    rw [show (openTopLevel (dedent st (indentOf raw)) (decodedOf raw)
        (descriptionOf raw) (indentOf raw)).options =
        (dedent st (indentOf raw)).options ++
        [⟨(decodedOf raw).1,
          HelpState.category (dedent st (indentOf raw)).state (decodedOf raw).1,
          (decodedOf raw).2.1, (decodedOf raw).2.2.1, descriptionOf raw,
          (decodedOf raw).2.2.2, [], []⟩] from rfl]
    rw [List.getLast?_concat]
    rfl
  · intro s
    simp only [List.mem_cons, List.mem_singleton, not_or] at hhdr
    obtain ⟨n1, n2, n3, n4, n5, n6⟩ := hhdr
    obtain ⟨n6, -⟩ := n6
    unfold HelpState.new_state_on_header
    rw [if_neg n1, if_neg n2, if_neg n3, if_neg n4, if_neg n5, if_neg n6]

/-- C7 witness: an option opened while the state is MLIR_PASSES gets
category MLIR_PASS, and a header outside the fixed table is a no-op. -/
theorem category_from_section_state_w :
    (((processLine ⟨[], none, none, none, none, HelpState.MLIR_PASSES⟩
      "--apass - d".data).options.getLast?).map OptionRecord.category) =
      some OptionCategory.MLIR_PASS
    ∧ HelpState.new_state_on_header HelpState.MLIR_PASSES "Unknown:".data =
      HelpState.MLIR_PASSES := by
  have h := category_from_section_state
    ⟨[], none, none, none, none, HelpState.MLIR_PASSES⟩
    "--apass - d".data "Unknown:".data
    (by decide) (by decide) (by decide) (by decide) (by decide) rfl (by decide)
  constructor
  · rw [h.1]
    decide
  · exact h.2.2.2.2.2.2.2.2.2 HelpState.MLIR_PASSES

/-- C8 amended: for every option spec whose first whitespace-delimited token
contains an equal sign, decoding returns style attached, the name equal to
the part of the token before the first equal sign with trailing opening
brackets stripped (and trailing commas stripped for the returned name, but
not for the insert text), insert text that name followed by an equal sign,
and a value hint that keeps its surrounding angle brackets: the tail after
the equal sign with trailing closing brackets stripped when non-empty, else
the first whitespace-delimited word of the trailing annotation when that
annotation starts with an opening angle bracket, else empty. -/
theorem decode_attached_spec (option_part token : List Char)
    (rest : List (List Char))
    (htok : pySplit option_part = token :: rest)
    (heq : token.contains '=' = true) :
    decode_option option_part =
      (rstripChar ',' (rstripChar '[' (partitionStr token ['=']).1),
       rstripChar '[' (partitionStr token ['=']).1 ++ ['='],
       "attached".data,
       if rstripChar ']' (partitionStr token ['=']).2.2 ≠ []
       then rstripChar ']' (partitionStr token ['=']).2.2
       else if (pyStrip (option_part.drop token.length)).head? = some '<'
         then (pySplit (pyStrip (option_part.drop token.length))).headD []
         else []) := by
  unfold decode_option
  rw [htok]
  dsimp only
  rw [if_pos heq]

/-- C8 witness: the fallback value hint: a token with empty tail after the
equal sign takes the first word of the angle-bracket annotation, brackets
kept. -/
theorem decode_attached_spec_w :
    decode_option "--flag= <value>".data =
      ("--flag".data, "--flag=".data, "attached".data, "<value>".data) := by
  have h := decode_attached_spec "--flag= <value>".data "--flag=".data
    ["<value>".data] (by decide) (by decide)
  rw [h]
  decide
